import Mathlib

/-!
Verification of the download-resolution core of `rye-devtools`
(`src/rye_devtools/find_downloads.py` and `src/rye_devtools/common.py`):
triple parsing, flavor extraction, best-download selection, the rate-limit
aware fetch loop, paginated collection, and checksum enrichment.

Python strings are modelled by Lean `String`; Python `str.split` /
substring containment are implemented over `List Char`; Python dicts used
as alias tables become `String → Option String` functions; the mutable
`sha256` field and the in-place sort become explicit value passing.
-/

namespace RyeDevtools

/-- Python `needle` prefix test over char lists (`haystack.startswith(needle)`). -/
def prefixOfL : List Char → List Char → Bool
  | [], _ => true
  | _ :: _, [] => false
  | a :: as, b :: bs => a == b && prefixOfL as bs

/-- Python substring containment `needle in haystack` over char lists. -/
def containsSub (needle : List Char) : List Char → Bool
  | [] => needle.isEmpty
  | c :: rest => prefixOfL needle (c :: rest) || containsSub needle rest

/-- Python `s.split(sep)` for a one-character separator: no collapsing of
empty fields, `"".split("-") == [""]`. -/
def splitOnChar (sep : Char) : List Char → List (List Char)
  | [] => [[]]
  | c :: rest =>
    match splitOnChar sep rest with
    | [] => [[]]
    | grp :: grps => if c = sep then [] :: grp :: grps else (c :: grp) :: grps

/-- `PlatformTriple` from find_downloads.py: arch, platform, optional
environment, optional flavor. -/
structure PlatformTriple where
  arch : String
  platform : String
  environment : Option String
  flavor : Option String
deriving DecidableEq, Repr

/-- `CPythonFinder.FLAVOR_PREFERENCES` (note the duplicated
`"shared-noopt"` entry, exactly as in the source). -/
def FLAVOR_PREFERENCES : List String :=
  ["shared-pgo", "shared-noopt", "shared-noopt", "pgo+lto", "pgo", "lto"]

/-- `CPythonFinder.HIDDEN_FLAVORS`. -/
def HIDDEN_FLAVORS : List String :=
  ["debug", "noopt", "install_only"]

/-- `CPythonFinder.SPECIAL_TRIPLES` as a lookup function. -/
def SPECIAL_TRIPLES : String → Option String := fun s =>
  if s = "macos" then some "x86_64-apple-darwin"
  else if s = "linux64" then some "x86_64-unknown-linux-gnu"
  else if s = "windows-amd64" then some "x86_64-pc-windows-msvc"
  else if s = "windows-x86-shared-pgo" then some "i686-pc-windows-msvc-shared-pgo"
  else if s = "windows-amd64-shared-pgo" then some "x86_64-pc-windows-msvc-shared-pgo"
  else if s = "windows-x86" then some "i686-pc-windows-msvc"
  else if s = "linux64-musl" then some "x86_64-unknown-linux-musl"
  else none

/-- `CPythonFinder.ARCH_MAPPING` as a lookup function. -/
def ARCH_MAPPING : String → Option String := fun s =>
  if s = "x86_64" then some "x86_64"
  else if s = "x86" then some "x86"
  else if s = "i686" then some "x86"
  else if s = "aarch64" then some "aarch64"
  else none

/-- `CPythonFinder.PLATFORM_MAPPING` as a lookup function. -/
def PLATFORM_MAPPING : String → Option String := fun s =>
  if s = "darwin" then some "macos"
  else if s = "windows" then some "windows"
  else if s = "linux" then some "linux"
  else none

/-- `CPythonFinder.ENV_MAPPING` as a lookup function (musl is commented
out in the source). -/
def ENV_MAPPING : String → Option String := fun s =>
  if s = "gnu" then some "gnu" else none

/-- `match_flavor` from `CPythonFinder.parse_triple`: first flavor of the
combined preference+hidden list occurring as a substring of the triple. -/
def match_flavor (triple : String) : Option String :=
  (FLAVOR_PREFERENCES ++ HIDDEN_FLAVORS).find?
    (fun flavor => containsSub flavor.toList triple.toList)

/-- The tail-to-head scan of `match_mapping`, over the reversed piece list:
the Python loop `for i in reversed(range(0, len(pieces)))`.  On a hit at
(original) index `i`, `rest.reverse` is `pieces[:i]`. -/
def scanFromEnd (m : String → Option String) : List String → Option (String × List String)
  | [] => none
  | p :: rest =>
    match m p with
    | some v => some (v, rest.reverse)
    | none => scanFromEnd m rest

/-- `match_mapping` from `CPythonFinder.parse_triple`: returns the value of
the last piece present in the mapping together with the pieces before it,
or `(none, pieces)` when no piece matches. -/
def match_mapping (pieces : List String) (m : String → Option String) :
    Option String × List String :=
  match scanFromEnd m pieces.reverse with
  | some (v, kept) => (some v, kept)
  | none => (none, pieces)

/-- The final checks of `CPythonFinder.parse_triple` (lines 270-276):
reject when arch or platform is absent, reject a linux platform without an
environment, otherwise build the triple. -/
def finishTriple (arch platform env flavor : Option String) : Option PlatformTriple :=
  match arch, platform with
  | some a, some p =>
    if env = none ∧ p = "linux" then none
    else some ⟨a, p, env, flavor⟩
  | _, _ => none

/-- `CPythonFinder.parse_triple`. -/
def parse_triple (raw : String) : Option PlatformTriple :=
  let t := (SPECIAL_TRIPLES raw).getD raw
  let pieces := (splitOnChar '-' t.toList).map (fun l => String.mk l)
  let flavor := match_flavor t
  let r1 := match_mapping pieces ENV_MAPPING
  let r2 := match_mapping r1.2 PLATFORM_MAPPING
  let r3 := match_mapping r2.2 ARCH_MAPPING
  finishTriple r3.1 r2.1 r1.1 flavor

/-! ### Version (common.py `Version` / find_downloads.py `PythonVersion`) -/

/-- `Version` / `PythonVersion`: a named tuple of three integers. -/
structure Version where
  major : Int
  minor : Int
  patch : Int
deriving DecidableEq, Repr

/-- Python tuple comparison on the three components (what `NamedTuple`
inherits from `tuple.__lt__`): lexicographic. -/
def Version.lt (a b : Version) : Prop :=
  a.major < b.major ∨
    (a.major = b.major ∧
      (a.minor < b.minor ∨ (a.minor = b.minor ∧ a.patch < b.patch)))

instance (a b : Version) : Decidable (Version.lt a b) := by
  unfold Version.lt; infer_instance

/-- `Version.__neg__`: negate each component. -/
def Version.neg (a : Version) : Version :=
  ⟨-a.major, -a.minor, -a.patch⟩

/-! ### The rate-limit aware `fetch` (common.py lines 48-76) -/

/-- The parts of an `httpx.Response` that `fetch` inspects.  Header strings
fed to Python `int()` are modelled already parsed (`retryAfter`,
`ratelimitReset`); `x-ratelimit-remaining` is kept as a string because the
code compares it to the string `"0"`. -/
structure Response where
  status : Nat
  ratelimitRemaining : Option String
  retryAfter : Option Int
  ratelimitReset : Option Int
deriving DecidableEq, Repr

/-- Outcome of `fetch`: a returned response, an `HTTPStatusError` raised by
`raise_for_status` (the spec's `NetworkError`, carrying the status), or the
scripted attempt list ran out (the code itself retries unboundedly). -/
inductive FetchResult where
  | success : Response → FetchResult
  | networkError : Nat → FetchResult
  | exhausted : FetchResult
deriving DecidableEq, Repr

/-- `httpx.Response.raise_for_status` raises exactly on 4xx and 5xx. -/
def isErrorStatus (s : Nat) : Bool := 400 ≤ s && s < 600

/-- `fetch` from common.py / find_downloads.py, driven by a script of
attempts: each attempt supplies the response and the current UTC timestamp
(`int(datetime.now(timezone.utc).timestamp())`).  Returns the result
together with the list of `time.sleep` durations in order. -/
def fetch : List (Response × Int) → FetchResult × List Int
  | [] => (.exhausted, [])
  | (r, now) :: rest =>
    if r.status ∈ [403, 429] ∧ r.ratelimitRemaining = some "0" then
      match r.retryAfter with
      | some ra => ((fetch rest).1, ra :: (fetch rest).2)
      | none =>
        match r.ratelimitReset with
        | some reset => ((fetch rest).1, max (reset - now) 0 :: (fetch rest).2)
        | none => ((fetch rest).1, 60 * 2 :: (fetch rest).2)
    else if isErrorStatus r.status then (.networkError r.status, [])
    else (.success r, [])

/-- The wait-duration policy the spec describes: prefer `retry-after`, else
`max(resetEpochSeconds - nowEpochSeconds, 0)` from `x-ratelimit-reset`, else
a fixed 120 seconds. -/
def waitChoice (r : Response) (now : Int) : Int :=
  match r.retryAfter with
  | some ra => ra
  | none =>
    match r.ratelimitReset with
    | some reset => max (reset - now) 0
    | none => 120

/-! ### Downloads and best-download selection -/

/-- `PythonImplementation` (StrEnum in the source). -/
inductive PythonImplementation where
  | cpython
  | pypy
deriving DecidableEq, Repr

/-- `PythonDownload` dataclass. -/
structure PythonDownload where
  version : Version
  triple : PlatformTriple
  implementation : PythonImplementation
  filename : String
  url : String
  sha256 : Option String := none
deriving DecidableEq, Repr

/-- `preference` inside `pick_best_download`:
`FLAVOR_PREFERENCES.index(download.triple.flavor)`, or
`len(FLAVOR_PREFERENCES) + 1` when `.index` raises `ValueError` (flavor
absent or not in the list). -/
def preference (d : PythonDownload) : Nat :=
  match d.triple.flavor with
  | none => FLAVOR_PREFERENCES.length + 1
  | some f =>
    match FLAVOR_PREFERENCES.indexOf? f with
    | some i => i
    | none => FLAVOR_PREFERENCES.length + 1

/-- The comparison `downloads.sort(key=preference)` sorts by. -/
def downloadLE (a b : PythonDownload) : Bool :=
  decide (preference a ≤ preference b)

/-- `CPythonFinder.pick_best_download`: `downloads.sort(key=preference)` is
Python's stable in-place ascending sort, then `downloads[0] if downloads
else None`.  The first component is the caller-visible final contents of the
(mutated) list, the second the returned download. -/
def pick_best_download (downloads : List PythonDownload) :
    List PythonDownload × Option PythonDownload :=
  let sorted := downloads.mergeSort downloadLE
  (sorted, sorted.head?)

/-! ### Paginated collection (`fetch_indygreg_downloads`, lines 183-192) -/

/-- `CPythonFinder.RELEASE_URL`. -/
def RELEASE_URL : String :=
  "https://api.github.com/repos/indygreg/python-build-standalone/releases"

/-- The URL requested for one page: `"%s?page=%d" % (RELEASE_URL, page)`. -/
def pageUrl (page : Nat) : String :=
  RELEASE_URL ++ "?page=" ++ toString page

/-- The page loop of `fetch_indygreg_downloads`, as the list of page numbers
requested: starting at `page` with `n` loop iterations left, each iteration
fetches its page and breaks if the page's row list is empty.  `rows` maps a
page number to its decoded JSON row list. -/
def fetchPagesLoop {α : Type} (rows : Nat → List α) : Nat → Nat → List Nat
  | _, 0 => []
  | page, n + 1 =>
    match rows page with
    | [] => [page]
    | _ :: _ => page :: fetchPagesLoop rows (page + 1) n

/-- The pages requested by `fetch_indygreg_downloads(pages)`:
`for page in range(1, pages)` iterates `pages - 1` times starting at 1. -/
def requestedPages {α : Type} (rows : Nat → List α) (pages : Nat) : List Nat :=
  fetchPagesLoop rows 1 (pages - 1)

/-- A download with the given flavor, otherwise fixed fields (used to
instantiate selection claims on concrete inputs). -/
def sampleDownload (flavor : Option String) : PythonDownload :=
  { version := ⟨3, 12, 1⟩
    triple := ⟨"x86_64", "windows", none, flavor⟩
    implementation := PythonImplementation.cpython
    filename := "cpython.tar.zst"
    url := "https://example.invalid/cpython.tar.zst"
    sha256 := none }

/-! ### Checksum enrichment (`fetch_indygreg_checksums`, lines 293-334) -/

/-- Python `url.rsplit("/", maxsplit=1)[0]`: everything before the last
`/`, or the whole string when there is none. -/
def rsplitHead (s : String) : String :=
  match (s.toList.reverse).dropWhile (fun c => c ≠ '/') with
  | [] => s
  | _ :: rest => String.mk rest.reverse

/-- The checksum-manifest URL derived from one download:
`download.url.rsplit("/", maxsplit=1)[0] + "/SHA256SUMS"`. -/
def checksumUrl (d : PythonDownload) : String :=
  rsplitHead d.url ++ "/SHA256SUMS"

/-- The distinct checksum URLs needed (the source collects them into a
Python set; modelled as a duplicate-free list). -/
def checksumUrls (ds : List PythonDownload) : List String :=
  (ds.map checksumUrl).dedup

/-- The outcome of one manifest fetch: the response text as its
`splitlines()` list, or an `HTTPStatusError` with a status. -/
inductive FetchOutcome where
  | ok : List String → FetchOutcome
  | httpError : Nat → FetchOutcome
deriving DecidableEq, Repr

/-- The inner `fetch_checksums`: a 404 becomes `None` (no manifest), any
other `HTTPStatusError` is re-raised. -/
def fetch_checksums (net : String → FetchOutcome) (url : String) :
    Except Nat (Option (List String)) :=
  match net url with
  | .ok lines => .ok (some lines)
  | .httpError s => if s = 404 then .ok none else .error s

/-- Collect the manifests of all URLs, skipping `None` results and
propagating any raised status. -/
def gatherManifests (net : String → FetchOutcome) :
    List String → Except Nat (List (List String))
  | [] => .ok []
  | u :: us =>
    match fetch_checksums net u with
    | .error s => .error s
    | .ok none => gatherManifests net us
    | .ok (some lines) =>
      match gatherManifests net us with
      | .error s => .error s
      | .ok rest => .ok (lines :: rest)

/-- Python `line.split(" ", maxsplit=1)` as the chars before the first
space and the rest; `none` when the line has no space (the two-name
unpacking in the source then raises). -/
def breakAtSpace : List Char → Option (List Char × List Char)
  | [] => none
  | c :: rest =>
    if c = ' ' then some ([], rest)
    else
      match breakAtSpace rest with
      | some (a, b) => some (c :: a, b)
      | none => none

/-- `checksums[filename.strip()] = checksum` over the manifest lines in
order, later bindings overwriting earlier ones. -/
def buildChecksums (m : String → Option String) :
    List String → Except String (String → Option String)
  | [] => .ok m
  | line :: rest =>
    match breakAtSpace line.toList with
    | none => .error line
    | some (c, f) =>
      buildChecksums
        (fun x => if x = (String.mk f).trim then some (String.mk c) else m x) rest

/-- Failures of checksum enrichment: a non-404 HTTP status, or a manifest
line without a space. -/
inductive EnrichError where
  | httpError : Nat → EnrichError
  | badLine : String → EnrichError
deriving DecidableEq, Repr

/-- `CPythonFinder.fetch_indygreg_checksums`: gather the manifests of all
distinct checksum URLs (404 = no manifest), build the filename → checksum
dict, then set every download's `sha256` to `checksums.get(filename)`. -/
def fetch_indygreg_checksums (net : String → FetchOutcome)
    (ds : List PythonDownload) : Except EnrichError (List PythonDownload) :=
  match gatherManifests net (checksumUrls ds) with
  | .error s => .error (.httpError s)
  | .ok manifests =>
    match buildChecksums (fun _ => none) manifests.flatten with
    | .error line => .error (.badLine line)
    | .ok checksums =>
      .ok (ds.map (fun d => { d with sha256 := checksums d.filename }))

/-- All manifest lines the enrichment will parse (empty on a failed
gather); lets hypotheses about line well-formedness be decidable. -/
def gatheredLines (net : String → FetchOutcome) (ds : List PythonDownload) :
    List String :=
  match gatherManifests net (checksumUrls ds) with
  | .ok ms => ms.flatten
  | .error _ => []

/-! ## Theorems -/

example : parse_triple "x86_64-pc-windows-msvc-shared-pgo" =
    some ⟨"x86_64", "windows", none, some "shared-pgo"⟩ := by decide

example : parse_triple "x86_64_v3-unknown-linux-gnu-lto" = none := by decide

example : parse_triple "linux64" = some ⟨"x86_64", "linux", some "gnu", none⟩ := by decide

example : parse_triple "aarch64-apple-darwin-lto" =
    some ⟨"aarch64", "macos", none, some "lto"⟩ := by decide

example : parse_triple "aarch64-unknown-linux-gnu-pgo+lto" =
    some ⟨"aarch64", "linux", some "gnu", some "pgo+lto"⟩ := by decide

example : parse_triple "aarch64-unknown-linux-gnu-debug-full" =
    some ⟨"aarch64", "linux", some "gnu", some "debug"⟩ := by decide

example : parse_triple "ppc64le-unknown-linux-gnu-noopt-full" = none := by decide

/-! ### Helper lemmas on the tail-anchored scan and on `List.find?` -/

theorem scanFromEnd_cons_hit (m : String → Option String) (x : String)
    (rest : List String) (v : String) (hx : m x = some v) :
    scanFromEnd m (x :: rest) = some (v, rest.reverse) := by
  simp [scanFromEnd, hx]

theorem scanFromEnd_append_fail (m : String → Option String) (l₁ l₂ : List String)
    (h : ∀ x ∈ l₁, m x = none) :
    scanFromEnd m (l₁ ++ l₂) = scanFromEnd m l₂ := by
  induction l₁ with
  | nil => simp
  | cons a as ih =>
    have ha : m a = none := h a (List.mem_cons_self a as)
    simp only [List.cons_append, scanFromEnd, ha]
    exact ih (fun x hx => h x (List.mem_cons_of_mem a hx))

theorem scanFromEnd_eq_none (m : String → Option String) (l : List String)
    (h : ∀ x ∈ l, m x = none) : scanFromEnd m l = none := by
  induction l with
  | nil => simp [scanFromEnd]
  | cons a as ih =>
    have ha : m a = none := h a (List.mem_cons_self a as)
    simp only [scanFromEnd, ha]
    exact ih (fun x hx => h x (List.mem_cons_of_mem a hx))

theorem match_mapping_hit (pieces : List String) (m : String → Option String)
    (i : Nat) (hi : i < pieces.length) (v : String)
    (hv : m (pieces.get ⟨i, hi⟩) = some v)
    (hafter : ∀ j, ∀ hj : j < pieces.length, i < j → m (pieces.get ⟨j, hj⟩) = none) :
    match_mapping pieces m = (some v, pieces.take i) := by
  have hsplit : pieces = pieces.take i ++ pieces.get ⟨i, hi⟩ :: pieces.drop (i + 1) := by
    conv_lhs => rw [← List.take_append_drop i pieces]
    rw [List.drop_eq_getElem_cons hi]
    simp [List.get_eq_getElem]
  have hrev : pieces.reverse =
      (pieces.drop (i + 1)).reverse ++ pieces.get ⟨i, hi⟩ :: (pieces.take i).reverse := by
    conv_lhs => rw [hsplit]
    simp
  have hfail : ∀ x ∈ (pieces.drop (i + 1)).reverse, m x = none := by
    intro x hx
    rw [List.mem_reverse] at hx
    obtain ⟨k, hk⟩ := List.mem_iff_get.mp hx
    have hk2 : i + 1 + k.1 < pieces.length := by
      have := k.2
      simp only [List.length_drop] at this
      omega
    have hget : (pieces.drop (i + 1)).get k = pieces.get ⟨i + 1 + k.1, hk2⟩ := by
      simp [List.get_eq_getElem, List.getElem_drop]
    rw [← hk, hget]
    exact hafter (i + 1 + k.1) hk2 (by omega)
  unfold match_mapping
  rw [hrev, scanFromEnd_append_fail m _ _ hfail,
    scanFromEnd_cons_hit m _ _ v hv]
  simp

theorem match_mapping_miss (pieces : List String) (m : String → Option String)
    (h : ∀ p ∈ pieces, m p = none) :
    match_mapping pieces m = (none, pieces) := by
  unfold match_mapping
  rw [scanFromEnd_eq_none m pieces.reverse (fun x hx => h x (List.mem_reverse.mp hx))]

theorem find?_split {α : Type} (p : α → Bool) (l : List α) (a : α) :
    l.find? p = some a ↔
      ∃ l₁ l₂, l = l₁ ++ a :: l₂ ∧ p a = true ∧ ∀ x ∈ l₁, p x = false := by
  induction l with
  | nil => simp
  | cons b bs ih =>
    by_cases hb : p b = true
    · rw [List.find?_cons_of_pos _ hb]
      constructor
      · intro h
        injection h with h
        exact ⟨[], bs, by simp [h], by rw [← h]; exact hb, by simp⟩
      · rintro ⟨l₁, l₂, hsplit, hpa, hfail⟩
        cases l₁ with
        | nil =>
          simp only [List.nil_append, List.cons.injEq] at hsplit
          rw [hsplit.1]
        | cons c cs =>
          simp only [List.cons_append, List.cons.injEq] at hsplit
          have : p b = false := hsplit.1 ▸ hfail c (List.mem_cons_self c cs)
          rw [this] at hb
          exact absurd hb (by simp)
    · rw [List.find?_cons_of_neg _ hb]
      rw [ih]
      constructor
      · rintro ⟨l₁, l₂, hsplit, hpa, hfail⟩
        refine ⟨b :: l₁, l₂, by rw [hsplit, List.cons_append], hpa, ?_⟩
        intro x hx
        rcases List.mem_cons.mp hx with hx | hx
        · rw [hx]
          exact Bool.eq_false_iff.mpr hb
        · exact hfail x hx
      · rintro ⟨l₁, l₂, hsplit, hpa, hfail⟩
        cases l₁ with
        | nil =>
          simp only [List.nil_append, List.cons.injEq] at hsplit
          rw [hsplit.1] at hb
          exact absurd hpa hb
        | cons c cs =>
          simp only [List.cons_append, List.cons.injEq] at hsplit
          exact ⟨cs, l₂, hsplit.2, hpa, fun x hx => hfail x (hsplit.1 ▸ List.mem_cons_of_mem c hx)⟩

theorem finishTriple_linux (arch platform env flavor : Option String)
    (t : PlatformTriple) (h : finishTriple arch platform env flavor = some t)
    (hp : t.platform = "linux") : t.environment ≠ none := by
  cases arch with
  | none => simp [finishTriple] at h
  | some a =>
    cases platform with
    | none => simp [finishTriple] at h
    | some p =>
      simp only [finishTriple] at h
      split at h
      · exact absurd h (by simp)
      · rename_i hcond
        injection h with h
        subst h
        simp only at hp
        intro he
        exact hcond ⟨he, hp⟩

/-! ### Claims C1, C4, C5 -/

/-- C1: `match_mapping` is tail-anchored — scanning the pieces from the last
index to the first, the first piece in the alias table gives the value and
that piece together with everything after it is discarded (`pieces.take i`
remains); when no piece matches, the field is absent and the pieces are kept
unchanged.  Applied in the order environment, platform, architecture by
`parse_triple`, this yields
`parse_triple "x86_64-pc-windows-msvc-shared-pgo" = {x86_64, windows, no env, "shared-pgo"}`
and rejects `"x86_64_v3-unknown-linux-gnu-lto"` (architecture absent). -/
theorem claim_C1 :
    (∀ (pieces : List String) (m : String → Option String) (i : Nat)
        (hi : i < pieces.length) (v : String),
        m (pieces.get ⟨i, hi⟩) = some v →
        (∀ j, ∀ hj : j < pieces.length, i < j → m (pieces.get ⟨j, hj⟩) = none) →
        match_mapping pieces m = (some v, pieces.take i))
    ∧ (∀ (pieces : List String) (m : String → Option String),
        (∀ p ∈ pieces, m p = none) → match_mapping pieces m = (none, pieces))
    ∧ parse_triple "x86_64-pc-windows-msvc-shared-pgo" =
        some ⟨"x86_64", "windows", none, some "shared-pgo"⟩
    ∧ parse_triple "x86_64_v3-unknown-linux-gnu-lto" = none :=
  ⟨match_mapping_hit, match_mapping_miss, by decide, by decide⟩

/-- Witness for C1: the environment pass on the pieces of
`aarch64-unknown-linux-gnu` matches `gnu` at the last index and keeps the
pieces before it, and no piece of `x86_64-pc` matches the environment table. -/
theorem claim_C1_witness :
    match_mapping ["aarch64", "unknown", "linux", "gnu"] ENV_MAPPING =
      (some "gnu", ["aarch64", "unknown", "linux"]) ∧
    match_mapping ["x86_64", "pc"] ENV_MAPPING = (none, ["x86_64", "pc"]) := by
  constructor
  · exact claim_C1.1 ["aarch64", "unknown", "linux", "gnu"] ENV_MAPPING 3 (by decide)
      "gnu" (by decide)
      (fun j hj hij => by simp only [List.length_cons, List.length_nil] at hj; omega)
  · exact claim_C1.2.1 ["x86_64", "pc"] ENV_MAPPING (by decide)

/-- C4: `parse_triple` never returns a triple whose platform is `"linux"`
with an absent environment: a linux platform with no matched environment
token is rejected. -/
theorem claim_C4 : ∀ (s : String) (t : PlatformTriple),
    parse_triple s = some t → t.platform = "linux" → t.environment ≠ none := by
  intro s t h hp
  exact finishTriple_linux _ _ _ _ t h hp

/-- Witness for C4: `aarch64-unknown-linux-gnu-pgo+lto` parses to a linux
triple, and its environment is present. -/
theorem claim_C4_witness :
    (⟨"aarch64", "linux", some "gnu", some "pgo+lto"⟩ : PlatformTriple).environment ≠ none :=
  claim_C4 "aarch64-unknown-linux-gnu-pgo+lto"
    ⟨"aarch64", "linux", some "gnu", some "pgo+lto"⟩ (by decide) (by decide)

/-- C5: `match_flavor` returns the first tag of the preference list
concatenated with the hidden list (in that fixed order) occurring as a
substring of the triple string: a returned flavor is exactly a combined-list
element that matches while every earlier combined-list element does not
(so order in the list wins, not position in the text — on
`"x86_64-install_only-debug"` the earlier-listed `debug` wins although
`install_only` occurs earlier in the text); no match yields an absent
flavor, which is still a valid parse (`linux64` parses with no flavor). -/
theorem claim_C5 : ∀ t : String,
    (∀ f, match_flavor t = some f ↔
        ∃ l₁ l₂, FLAVOR_PREFERENCES ++ HIDDEN_FLAVORS = l₁ ++ f :: l₂ ∧
          containsSub f.toList t.toList = true ∧
          ∀ g ∈ l₁, containsSub g.toList t.toList = false)
    ∧ (match_flavor t = none ↔
        ∀ g ∈ FLAVOR_PREFERENCES ++ HIDDEN_FLAVORS, containsSub g.toList t.toList = false)
    ∧ match_flavor "x86_64-install_only-debug" = some "debug"
    ∧ parse_triple "linux64" = some ⟨"x86_64", "linux", some "gnu", none⟩ := by
  intro t
  refine ⟨fun f => ?_, ?_, by decide, by decide⟩
  · unfold match_flavor
    exact find?_split _ _ f
  · unfold match_flavor
    rw [List.find?_eq_none]
    simp only [Bool.not_eq_true]

/-! ### Claims C8 and C2 -/

/-- C8: `Version` is totally ordered lexicographically on the three integer
components (trichotomy, irreflexivity, transitivity), `(3,9,16) < (3,10,12)`
unlike string comparison, and negation inverts the order:
`v1 < v2 ↔ -v2 < -v1`, so sorting by negated version is descending. -/
theorem claim_C8 :
    (∀ a b : Version, Version.lt a b ∨ a = b ∨ Version.lt b a)
    ∧ (∀ a : Version, ¬ Version.lt a a)
    ∧ (∀ a b c : Version, Version.lt a b → Version.lt b c → Version.lt a c)
    ∧ Version.lt ⟨3, 9, 16⟩ ⟨3, 10, 12⟩
    ∧ (∀ a b : Version, Version.lt a b ↔ Version.lt (Version.neg b) (Version.neg a)) := by
  refine ⟨?_, ?_, ?_, by decide, ?_⟩
  · rintro ⟨a1, a2, a3⟩ ⟨b1, b2, b3⟩
    simp only [Version.lt, Version.mk.injEq]
    omega
  · rintro ⟨a1, a2, a3⟩
    simp only [Version.lt]
    omega
  · rintro ⟨a1, a2, a3⟩ ⟨b1, b2, b3⟩ ⟨c1, c2, c3⟩
    simp only [Version.lt]
    omega
  · rintro ⟨a1, a2, a3⟩ ⟨b1, b2, b3⟩
    simp only [Version.lt, Version.neg]
    omega

/-- Witness for C8: transitivity and the negation equivalence applied at
concrete versions. -/
theorem claim_C8_witness :
    Version.lt ⟨3, 8, 0⟩ ⟨3, 10, 12⟩ ∧
    Version.lt (Version.neg ⟨3, 10, 12⟩) (Version.neg ⟨3, 9, 16⟩) :=
  ⟨claim_C8.2.2.1 ⟨3, 8, 0⟩ ⟨3, 9, 16⟩ ⟨3, 10, 12⟩ (by decide) (by decide),
    (claim_C8.2.2.2.2 ⟨3, 9, 16⟩ ⟨3, 10, 12⟩).mp (by decide)⟩

/-- C2: one step of `fetch`.  When the status is 403 or 429 and the
`x-ratelimit-remaining` header is the string `"0"`, the fetcher sleeps for
`waitChoice` (retry-after preferred, else `max(reset - now, 0)`, else 120
seconds) and retries the identical request; any other 4xx/5xx status fails
immediately with a `NetworkError` carrying the status and no sleep; any
other status returns the response successfully with no sleep. -/
theorem claim_C2 : ∀ (r : Response) (now : Int) (rest : List (Response × Int)),
    ((r.status ∈ [403, 429] ∧ r.ratelimitRemaining = some "0") →
        fetch ((r, now) :: rest) = ((fetch rest).1, waitChoice r now :: (fetch rest).2))
    ∧ (¬(r.status ∈ [403, 429] ∧ r.ratelimitRemaining = some "0") →
        isErrorStatus r.status = true →
        fetch ((r, now) :: rest) = (.networkError r.status, []))
    ∧ (¬(r.status ∈ [403, 429] ∧ r.ratelimitRemaining = some "0") →
        isErrorStatus r.status = false →
        fetch ((r, now) :: rest) = (.success r, [])) := by
  intro r now rest
  refine ⟨fun hrl => ?_, fun hrl herr => ?_, fun hrl herr => ?_⟩
  · simp only [fetch, if_pos hrl, waitChoice]
    cases r.retryAfter with
    | some ra => rfl
    | none =>
      cases r.ratelimitReset with
      | some reset => rfl
      | none => rfl
  · simp only [fetch, if_neg hrl, herr, if_pos]
  · simp only [fetch, if_neg hrl, herr]
    simp

/-- Witness for C2: a 429 with `remaining "0"` and `retry-after 5` sleeps 5
seconds and retries, so a scripted follow-up 200 is returned with the single
recorded sleep; a bare 404 fails immediately with a NetworkError. -/
theorem claim_C2_witness :
    fetch [(⟨429, some "0", some 5, none⟩, 0), (⟨200, none, none, none⟩, 7)] =
      (.success ⟨200, none, none, none⟩, [5]) ∧
    fetch [(⟨404, none, none, none⟩, 0)] = (.networkError 404, []) := by
  constructor
  · have h1 := (claim_C2 ⟨429, some "0", some 5, none⟩ 0
      [(⟨200, none, none, none⟩, 7)]).1 (by decide)
    rw [h1]
    have h2 := (claim_C2 ⟨200, none, none, none⟩ 7 []).2.2 (by decide) (by decide)
    rw [h2]
    rfl
  · exact (claim_C2 ⟨404, none, none, none⟩ 0 []).2.1 (by decide) (by decide)

theorem downloadLE_trans : ∀ a b c : PythonDownload,
    downloadLE a b = true → downloadLE b c = true → downloadLE a c = true := by
  intro a b c hab hbc
  simp only [downloadLE, decide_eq_true_eq] at *
  omega

theorem downloadLE_total : ∀ a b : PythonDownload,
    (downloadLE a b || downloadLE b a) = true := by
  intro a b
  simp only [downloadLE, Bool.or_eq_true, decide_eq_true_eq]
  omega

/-- The head of the stable sort is the first element of the input attaining
the minimal preference: it splits the input into a prefix of strictly worse
elements, itself, and a suffix. -/
theorem head_mergeSort_pref : ∀ ds : List PythonDownload, ds ≠ [] →
    ∃ d l₁ l₂, (ds.mergeSort downloadLE).head? = some d ∧ ds = l₁ ++ d :: l₂ ∧
      (∀ e ∈ ds, preference d ≤ preference e) ∧
      ∀ e ∈ l₁, preference d < preference e := by
  intro ds
  induction ds with
  | nil => intro h; exact absurd rfl h
  | cons a tl ih =>
    intro _
    obtain ⟨l₁, l₂, hsort, htl, hworse⟩ :=
      List.mergeSort_cons downloadLE_trans downloadLE_total a tl
    cases l₁ with
    | nil =>
      refine ⟨a, [], tl, ?_, by simp, ?_, by simp⟩
      · rw [hsort]
        rfl
      · intro e he
        rcases List.mem_cons.mp he with he | he
        · rw [he]
        · have hsorted := List.sorted_mergeSort downloadLE_trans downloadLE_total (a :: tl)
          rw [hsort] at hsorted
          have he2 : e ∈ l₂ := by
            rw [List.nil_append] at htl
            rw [← htl]
            exact ((tl.mergeSort_perm downloadLE).mem_iff).mpr he
          have := (List.pairwise_cons.mp hsorted).1 e he2
          simpa [downloadLE, decide_eq_true_eq] using this
    | cons b l₁x =>
      have htlne : tl ≠ [] := by
        intro h0
        rw [h0] at htl
        simp at htl
      obtain ⟨d, p, s, hdhead, hdsplit, hdmin, hdstrict⟩ := ih htlne
      have hdb : d = b := by
        rw [htl] at hdhead
        simp only [List.cons_append, List.head?_cons] at hdhead
        injection hdhead with h
        exact h.symm
      subst hdb
      have hba : preference d < preference a := by
        have h2 : ¬ (preference a ≤ preference d) := by
          simpa [downloadLE] using hworse d (List.mem_cons_self d l₁x)
        omega
      refine ⟨d, a :: p, s, ?_, by rw [hdsplit, List.cons_append], ?_, ?_⟩
      · rw [hsort]
        rfl
      · intro e he
        rcases List.mem_cons.mp he with he | he
        · rw [he]
          omega
        · exact hdmin e he
      · intro e he
        rcases List.mem_cons.mp he with he | he
        · rw [he]
          exact hba
        · exact hdstrict e he

theorem range_map_shift (start n : Nat) :
    (List.range (n + 1)).map (fun k => start + k) =
      start :: (List.range n).map (fun k => start + 1 + k) := by
  rw [List.range_succ_eq_map]
  simp only [List.map_cons, Nat.add_zero, List.map_map]
  congr 1
  apply List.map_congr_left
  intro k _
  simp only [Function.comp_apply]
  omega

theorem fetchPagesLoop_all_nonempty {α : Type} (rows : Nat → List α) :
    ∀ (n start : Nat), (∀ p, start ≤ p → p < start + n → rows p ≠ []) →
      fetchPagesLoop rows start n = (List.range n).map (fun k => start + k) := by
  intro n
  induction n with
  | zero => intro start _; rfl
  | succ m ih =>
    intro start h
    have hne : rows start ≠ [] := h start (Nat.le_refl start) (by omega)
    cases hr : rows start with
    | nil => exact absurd hr hne
    | cons x xs =>
      simp only [fetchPagesLoop, hr]
      rw [ih (start + 1) (fun p hp1 hp2 => h p (by omega) (by omega))]
      rw [range_map_shift]

theorem fetchPagesLoop_stops_at_empty {α : Type} (rows : Nat → List α) :
    ∀ (n start p : Nat), start ≤ p → p < start + n →
      (∀ q, start ≤ q → q < p → rows q ≠ []) → rows p = [] →
      fetchPagesLoop rows start n = (List.range (p - start + 1)).map (fun k => start + k) := by
  intro n
  induction n with
  | zero => intro start p h1 h2; omega
  | succ m ih =>
    intro start p h1 h2 hbefore hempty
    rcases Nat.eq_or_lt_of_le h1 with heq | hlt
    · subst heq
      simp only [fetchPagesLoop, hempty]
      have h0 : start - start + 1 = 1 := by omega
      rw [h0]
      have h3 : List.range 1 = [0] := rfl
      rw [h3]
      simp
    · have hne : rows start ≠ [] := hbefore start (Nat.le_refl start) hlt
      cases hr : rows start with
      | nil => exact absurd hr hne
      | cons x xs =>
        simp only [fetchPagesLoop, hr]
        rw [ih (start + 1) p (by omega) (by omega)
          (fun q hq1 hq2 => hbefore q (by omega) hq2) hempty]
        have hp : p - start + 1 = (p - (start + 1) + 1) + 1 := by omega
        rw [hp, range_map_shift start (p - (start + 1) + 1)]

/-- C3: on a non-empty candidate list, `pick_best_download` returns the
first candidate (in input order) attaining the minimal flavor-preference
rank: the result is a member splitting the input into a prefix of strictly
worse-ranked candidates, itself, and a suffix, and its rank is minimal over
the whole list (unrecognized or absent flavors rank past the end of the
preference list but are never rejected).  Concretely, a group with flavors
`lto, shared-pgo, pgo` yields the `shared-pgo` candidate, and a group with
only an unrecognized flavor yields that sole candidate. -/
theorem claim_C3 :
    (∀ ds : List PythonDownload, ds ≠ [] →
      ∃ d l₁ l₂, (pick_best_download ds).2 = some d ∧ ds = l₁ ++ d :: l₂ ∧
        (∀ e ∈ ds, preference d ≤ preference e) ∧
        ∀ e ∈ l₁, preference d < preference e)
    ∧ (pick_best_download
        [sampleDownload (some "lto"), sampleDownload (some "shared-pgo"),
          sampleDownload (some "pgo")]).2 = some (sampleDownload (some "shared-pgo"))
    ∧ (pick_best_download [sampleDownload (some "mystery")]).2 =
        some (sampleDownload (some "mystery")) := by
  refine ⟨?_, ?_, ?_⟩
  · intro ds h
    obtain ⟨d, l₁, l₂, hdhead, hdsplit, hdmin, hdstrict⟩ := head_mergeSort_pref ds h
    exact ⟨d, l₁, l₂, hdhead, hdsplit, hdmin, hdstrict⟩
  · simp [pick_best_download, List.mergeSort, downloadLE, preference, sampleDownload,
      FLAVOR_PREFERENCES, List.indexOf?]
  · simp [pick_best_download, List.mergeSort]

/-- Witness for C3: the characterization applied to a concrete two-element
group whose first element has the worse rank. -/
theorem claim_C3_witness :
    ∃ d l₁ l₂,
      (pick_best_download [sampleDownload none, sampleDownload (some "pgo")]).2 = some d ∧
      [sampleDownload none, sampleDownload (some "pgo")] = l₁ ++ d :: l₂ ∧
      (∀ e ∈ [sampleDownload none, sampleDownload (some "pgo")],
        preference d ≤ preference e) ∧
      ∀ e ∈ l₁, preference d < preference e :=
  claim_C3.1 [sampleDownload none, sampleDownload (some "pgo")] (by simp)

/-- C9: called on an empty candidate list, `pick_best_download` returns
`None` (`downloads[0] if downloads else None`) instead of raising. -/
theorem claim_C9 : (pick_best_download []).2 = none := by
  simp [pick_best_download]

/-- C10: `pick_best_download` sorts the caller's list in place: afterwards
the list holds exactly the same downloads (a permutation — the elements
are unchanged), in ascending flavor-preference order, and stably (any two
elements in key order keep their relative order). -/
theorem claim_C10 : ∀ ds : List PythonDownload,
    ((pick_best_download ds).1).Perm ds
    ∧ List.Pairwise (fun a b => preference a ≤ preference b) (pick_best_download ds).1
    ∧ ∀ a b : PythonDownload, preference a ≤ preference b →
        List.Sublist [a, b] ds → List.Sublist [a, b] (pick_best_download ds).1 := by
  intro ds
  refine ⟨List.mergeSort_perm ds downloadLE, ?_, ?_⟩
  · have h := List.sorted_mergeSort downloadLE_trans downloadLE_total ds
    exact h.imp (fun hab => by simpa [downloadLE] using hab)
  · intro a b hab hsub
    have hpair : List.Pairwise (fun x y => downloadLE x y = true) [a, b] := by
      refine List.Pairwise.cons ?_ (List.pairwise_singleton _ _)
      intro y hy
      rw [List.mem_singleton] at hy
      subst hy
      simpa [downloadLE] using hab
    exact List.sublist_mergeSort downloadLE_trans downloadLE_total hpair hsub

/-- Witness for C10: stability applied to a concrete pair already in key
order inside a three-element list. -/
theorem claim_C10_witness :
    List.Sublist [sampleDownload (some "pgo"), sampleDownload none]
      (pick_best_download
        [sampleDownload (some "pgo"), sampleDownload none]).1 :=
  (claim_C10 [sampleDownload (some "pgo"), sampleDownload none]).2.2
    (sampleDownload (some "pgo")) (sampleDownload none) (by decide)
    (List.Sublist.refl _)

/-- C6 as stated is false: the loop is `for page in range(1, pages)`, so
with every page non-empty and a limit of 2 only page 1 is requested — not
pages 1 and 2. -/
theorem claim_C6_counterexample :
    requestedPages (fun _ => [()]) 2 = [1] ∧
    (requestedPages (fun _ => [()]) 2).length ≠ 2 := by
  constructor
  · rfl
  · decide

/-- C6 (amended): `fetch_indygreg_downloads` with limit `pages` requests
pages `1` through `pages - 1` in order, stopping earlier exactly when a
page's row list is empty: if pages `1..pages-1` are all non-empty, exactly
`pages - 1` pages (namely `1..pages-1`) are requested; if `p < pages` is the
first empty page, exactly pages `1..p` are requested (the empty page `p` is
itself fetched, then the loop breaks). -/
theorem claim_C6 : ∀ {α : Type} (rows : Nat → List α) (pages : Nat),
    ((∀ p, 1 ≤ p → p < pages → rows p ≠ []) →
        requestedPages rows pages = (List.range (pages - 1)).map (fun k => 1 + k) ∧
        (requestedPages rows pages).length = pages - 1)
    ∧ ∀ p, 1 ≤ p → p < pages → rows p = [] →
        (∀ q, 1 ≤ q → q < p → rows q ≠ []) →
        requestedPages rows pages = (List.range p).map (fun k => 1 + k) := by
  intro α rows pages
  constructor
  · intro hne
    have h1 := fetchPagesLoop_all_nonempty rows (pages - 1) 1
      (fun p hp1 hp2 => hne p hp1 (by omega))
    refine ⟨h1, ?_⟩
    show (fetchPagesLoop rows 1 (pages - 1)).length = pages - 1
    rw [h1]
    simp
  · intro p hp1 hp2 hempty hbefore
    have h1 := fetchPagesLoop_stops_at_empty rows (pages - 1) 1 p hp1 (by omega)
      (fun q hq1 hq2 => hbefore q hq1 hq2) hempty
    have h2 : p - 1 + 1 = p := by omega
    rw [h2] at h1
    exact h1

/-- Witness for C6: with all pages non-empty and limit 3, exactly pages
1 and 2 are requested. -/
theorem claim_C6_witness :
    requestedPages (fun _ => [()]) 3 = (List.range 2).map (fun k => 1 + k) ∧
    (requestedPages (fun _ => [()]) 3).length = 2 :=
  (claim_C6 (fun _ => [()]) 3).1 (fun p h1 h2 => by simp)

theorem gatherManifests_ok (net : String → FetchOutcome) :
    ∀ us : List String, (∀ u ∈ us, ∀ s, net u = .httpError s → s = 404) →
      gatherManifests net us = .ok (us.filterMap
        (fun u => match net u with | .ok lines => some lines | .httpError _ => none)) := by
  intro us
  induction us with
  | nil => intro _; rfl
  | cons u us ih =>
    intro h
    have hus := fun v hv => h v (List.mem_cons_of_mem u hv)
    cases hn : net u with
    | ok lines =>
      simp only [gatherManifests, fetch_checksums, hn, ih hus, List.filterMap_cons]
    | httpError s =>
      have h404 : s = 404 := h u (List.mem_cons_self u us) s hn
      subst h404
      simp [gatherManifests, fetch_checksums, hn, ih hus, List.filterMap_cons]

theorem gatherManifests_err (net : String → FetchOutcome) :
    ∀ us : List String, (∃ u ∈ us, ∃ s, net u = .httpError s ∧ s ≠ 404) →
      ∃ s, s ≠ 404 ∧ gatherManifests net us = .error s := by
  intro us
  induction us with
  | nil => rintro ⟨u, hu, -⟩; exact absurd hu (List.not_mem_nil u)
  | cons u us ih =>
    rintro ⟨v, hv, s, hvs, hs404⟩
    cases hn : net u with
    | ok lines =>
      have hvus : v ∈ us := by
        rcases List.mem_cons.mp hv with hvu | hvus
        · subst hvu
          rw [hn] at hvs
          exact absurd hvs (by simp)
        · exact hvus
      obtain ⟨t, ht404, hterr⟩ := ih ⟨v, hvus, s, hvs, hs404⟩
      refine ⟨t, ht404, ?_⟩
      simp only [gatherManifests, fetch_checksums, hn, hterr]
    | httpError t =>
      by_cases ht : t = 404
      · subst ht
        have hvus : v ∈ us := by
          rcases List.mem_cons.mp hv with hvu | hvus
          · subst hvu
            rw [hn] at hvs
            injection hvs with h
            exact absurd h.symm hs404
          · exact hvus
        obtain ⟨w, hw404, hwerr⟩ := ih ⟨v, hvus, s, hvs, hs404⟩
        refine ⟨w, hw404, ?_⟩
        simp [gatherManifests, fetch_checksums, hn, hwerr]
      · refine ⟨t, ht, ?_⟩
        simp only [gatherManifests, fetch_checksums, hn, if_neg ht]

theorem buildChecksums_ok :
    ∀ (lines : List String) (m : String → Option String),
      (∀ line ∈ lines, breakAtSpace line.toList ≠ none) →
      ∃ cm, buildChecksums m lines = .ok cm := by
  intro lines
  induction lines with
  | nil => exact fun m _ => ⟨m, rfl⟩
  | cons line rest ih =>
    intro m h
    cases hb : breakAtSpace line.toList with
    | none => exact absurd hb (h line (List.mem_cons_self line rest))
    | some cf =>
      obtain ⟨c, f⟩ := cf
      obtain ⟨cm, hcm⟩ := ih
        (fun x => if x = (String.mk f).trim then some (String.mk c) else m x)
        (fun l hl => h l (List.mem_cons_of_mem line hl))
      refine ⟨cm, ?_⟩
      simp only [buildChecksums, hb, hcm]

/-! ### Claim C7 -/

/-- C7: checksum enrichment treats a 404 on a manifest URL as "no manifest
available" — the fetch is skipped, not an error — while any non-404 HTTP
failure propagates and aborts enrichment; when every failure is a 404 the
gathered manifests are exactly those of the URLs answering successfully,
and (for parseable manifests) enrichment succeeds with every download's
`sha256` set to the lookup of its filename in the manifest-derived dict —
present when mapped, absent otherwise. -/
theorem claim_C7 : ∀ (net : String → FetchOutcome) (ds : List PythonDownload),
    ((∃ u ∈ checksumUrls ds, ∃ s, net u = .httpError s ∧ s ≠ 404) →
        ∃ s, s ≠ 404 ∧ fetch_indygreg_checksums net ds = .error (.httpError s))
    ∧ ((∀ u ∈ checksumUrls ds, ∀ s, net u = .httpError s → s = 404) →
        gatherManifests net (checksumUrls ds) = .ok ((checksumUrls ds).filterMap
          (fun u => match net u with | .ok lines => some lines | .httpError _ => none)))
    ∧ ((∀ u ∈ checksumUrls ds, ∀ s, net u = .httpError s → s = 404) →
        (∀ line ∈ gatheredLines net ds, breakAtSpace line.toList ≠ none) →
        ∃ checksums : String → Option String, fetch_indygreg_checksums net ds =
          .ok (ds.map (fun d => { d with sha256 := checksums d.filename }))) := by
  intro net ds
  refine ⟨?_, gatherManifests_ok net (checksumUrls ds), ?_⟩
  · intro hbad
    obtain ⟨s, hs404, herr⟩ := gatherManifests_err net (checksumUrls ds) hbad
    refine ⟨s, hs404, ?_⟩
    simp only [fetch_indygreg_checksums, herr]
  · intro h404 hlines
    have hok := gatherManifests_ok net (checksumUrls ds) h404
    have hlines2 : ∀ line ∈ ((checksumUrls ds).filterMap
        (fun u => match net u with | .ok lines => some lines | .httpError _ => none)).flatten,
        breakAtSpace line.toList ≠ none := by
      intro line hline
      apply hlines
      unfold gatheredLines
      rw [hok]
      exact hline
    obtain ⟨cm, hcm⟩ := buildChecksums_ok _ (fun _ => none) hlines2
    refine ⟨cm, ?_⟩
    simp only [fetch_indygreg_checksums, hok, hcm]

/-- Witness for C7: a concrete network where one extra manifest URL answers
404 and the needed one returns a one-line manifest; enrichment reports a
non-404 abort on a second network that answers 500, and succeeds on the
404-only network. -/
theorem claim_C7_witness :
    (∃ s, s ≠ 404 ∧
      fetch_indygreg_checksums (fun _ => FetchOutcome.httpError 500)
        [sampleDownload none] = .error (.httpError s)) ∧
    (∃ checksums : String → Option String,
      fetch_indygreg_checksums (fun _ => FetchOutcome.httpError 404)
        [sampleDownload none] =
        .ok ([sampleDownload none].map
          (fun d => { d with sha256 := checksums d.filename }))) := by
  constructor
  · exact (claim_C7 (fun _ => FetchOutcome.httpError 500) [sampleDownload none]).1
      ⟨checksumUrl (sampleDownload none), by decide, 500, rfl, by decide⟩
  · exact (claim_C7 (fun _ => FetchOutcome.httpError 404) [sampleDownload none]).2.2
      (fun u hu s hs => by injection hs with h; exact h.symm) (by decide)

/-- Witness for C5: instantiating the characterization at
`"aarch64-apple-darwin-lto"` yields the flavor `lto` (the first five
combined-list entries do not occur in the string). -/
theorem claim_C5_witness : match_flavor "aarch64-apple-darwin-lto" = some "lto" :=
  ((claim_C5 "aarch64-apple-darwin-lto").1 "lto").mpr
    ⟨["shared-pgo", "shared-noopt", "shared-noopt", "pgo+lto", "pgo"], ["debug", "noopt", "install_only"],
      by decide, by decide, by decide⟩

end RyeDevtools
